import Mathlib

/-!
CLIKit: key decoder, named-key matcher, progress bar, timestamp, tooltip and masked input.

A shallow embedding of `src/Examples/CLIKit.h`.

* A byte is a `Fin 256`; a `std::string` is a list of bytes, so that `size()` is the
  number of bytes.
* `getchar` returns an `int`: the byte as an unsigned value, or `EOF` (-1) at end of input.
* The terminal attributes of `STDIN_FILENO`, the unread input and the number of `getchar`
  calls performed so far are explicit state (`World`), threaded through every statement.
* `ICANON` and `ECHO` come from `<termios.h>`; they are parameters of `PollKey`.
-/

namespace CLIKit

/-! ## Data model -/

/-- The `enum class Key` of the source, constructors in declaration order. -/
inductive Key where
  | Unknown
  | Char
  | Space
  | Enter
  | Backspace
  | UpArrow
  | DownArrow
  | LeftArrow
  | RightArrow
  | Escape
deriving DecidableEq, Repr

/-- One byte (`unsigned char`). -/
abbrev Byte := Fin 256

/-- A `std::string`: its bytes in order. -/
abbrev Str := List Byte

/-- The bytes of an ASCII string literal of the source. -/
def lit (s : String) : Str := s.toList.map (fun c => Fin.ofNat c.toNat)

/-- The `struct KeyResult`: `ch` is the byte stored in the `char` field. -/
structure KeyResult where
  key : Key
  ch : Byte
deriving DecidableEq, Repr

/-- The four flag words of a `struct termios`. -/
structure termios where
  c_iflag : Nat
  c_oflag : Nat
  c_cflag : Nat
  c_lflag : Nat
deriving DecidableEq, Repr

/-- Explicit state: the attributes of the terminal behind `STDIN_FILENO`, the bytes of
standard input not read yet, and the number of `getchar` calls performed. -/
structure World where
  term : termios
  stdin : List Byte
  reads : Nat
deriving DecidableEq, Repr

/-- The value `EOF` of `<cstdio>`. -/
def EOF : Int := -1

/-- The call `tcgetattr(STDIN_FILENO, &t)`: the current attributes. -/
def tcgetattr (w : World) : termios := w.term

/-- The call `tcsetattr(STDIN_FILENO, TCSANOW, &t)`. -/
def tcsetattr (t : termios) (w : World) : World := { w with term := t }

/-- The call `getchar()`: the next byte as an `int`, or `EOF` when no input is left. -/
def getchar (w : World) : Int × World :=
  match w.stdin with
  | [] => (EOF, { w with reads := w.reads + 1 })
  | b :: rest => ((b.val : Int), { w with stdin := rest, reads := w.reads + 1 })

/-- The conversion `static_cast<char>(i)` of an `int`: the low eight bits. -/
def static_cast_char (i : Int) : Byte := Fin.ofNat (i % 256).toNat

/-- The statement `newt.c_lflag &= ~(ICANON | ECHO)` on a 32-bit `tcflag_t`. -/
def clearLocalFlags (ICANON ECHO : Nat) (t : termios) : termios :=
  { t with c_lflag := t.c_lflag &&& ((2 ^ 32 - 1) ^^^ ((ICANON ||| ECHO) % 2 ^ 32)) }

/-! ## `PollKey`, the branch compiled when `_WIN32` is not defined -/

/-- The function `PollKey` (POSIX branch), statement by statement. -/
def PollKey (ICANON ECHO : Nat) (w : World) : KeyResult × World :=
  let oldt := tcgetattr w
  let newt := clearLocalFlags ICANON ECHO oldt
  let w := tcsetattr newt w
  let (ch1, w) := getchar w
  if ch1 = 27 then
    let (ch2, w) := getchar w
    if ch2 = 91 then
      let (ch3, w) := getchar w
      if ch3 = 65 then
        let w := tcsetattr oldt w
        ({ key := Key.UpArrow, ch := 0 }, w)
      else if ch3 = 66 then
        let w := tcsetattr oldt w
        ({ key := Key.DownArrow, ch := 0 }, w)
      else if ch3 = 68 then
        let w := tcsetattr oldt w
        ({ key := Key.LeftArrow, ch := 0 }, w)
      else if ch3 = 67 then
        let w := tcsetattr oldt w
        ({ key := Key.RightArrow, ch := 0 }, w)
      else
        let w := tcsetattr oldt w
        ({ key := Key.Unknown, ch := 0 }, w)
    else
      let w := tcsetattr oldt w
      ({ key := Key.Escape, ch := 0 }, w)
  else
    if ch1 = 10 ∨ ch1 = 13 then
      let w := tcsetattr oldt w
      ({ key := Key.Enter, ch := 0 }, w)
    else if ch1 = 127 ∨ ch1 = 8 then
      let w := tcsetattr oldt w
      ({ key := Key.Backspace, ch := 0 }, w)
    else if ch1 = 32 then
      let w := tcsetattr oldt w
      ({ key := Key.Space, ch := 0 }, w)
    else
      let w := tcsetattr oldt w
      ({ key := Key.Char, ch := static_cast_char ch1 }, w)

/-! ## `KeyboardEvent` -/

/-- The comparison that `KeyboardEvent` performs on the polled result `kr`. -/
def keyMatches (desiredKey : Str) (kr : KeyResult) : Bool :=
  if desiredKey.length = 1 ∧ kr.key = Key.Char then
    decide (some kr.ch = desiredKey.head?)
  else if desiredKey = lit "space" ∧ kr.key = Key.Space then true
  else if desiredKey = lit "enter" ∧ kr.key = Key.Enter then true
  else if desiredKey = lit "backspace" ∧ kr.key = Key.Backspace then true
  else if desiredKey = lit "escape" ∧ kr.key = Key.Escape then true
  else if desiredKey = lit "up_arrow" ∧ kr.key = Key.UpArrow then true
  else if desiredKey = lit "down_arrow" ∧ kr.key = Key.DownArrow then true
  else if desiredKey = lit "left_arrow" ∧ kr.key = Key.LeftArrow then true
  else if desiredKey = lit "right_arrow" ∧ kr.key = Key.RightArrow then true
  else false

/-- The function `KeyboardEvent`: poll one key, then compare it with `desiredKey`. -/
def KeyboardEvent (ICANON ECHO : Nat) (desiredKey : Str) (w : World) : Bool × World :=
  let (kr, w) := PollKey ICANON ECHO w
  (keyMatches desiredKey kr, w)

/-- The known patterns as the specification lists them, read on the front of the input:
a direct-mapped control byte (10, 13, 8, 127 or 32), a printable character (0x20 to 0x7E),
a bare Escape (27 followed by end of input or by a byte other than `'['`), or `27, '['`
followed by `'A'`, `'B'`, `'C'` or `'D'`. -/
def knownPattern (s : List Byte) : Bool :=
  match s with
  | [] => false
  | b :: rest =>
    if b = 27 then
      match rest with
      | [] => true
      | c :: rest2 =>
        if c = 91 then
          match rest2 with
          | [] => false
          | x :: _ => decide (x = 65 ∨ x = 66 ∨ x = 67 ∨ x = 68)
        else true
    else decide (b = 10 ∨ b = 13 ∨ b = 8 ∨ b = 127 ∨ b = 32 ∨ (0x20 ≤ b.val ∧ b.val ≤ 0x7E))

/-- The eight symbolic names of the specification with the key each one stands for. -/
def namedKeys : List (Str × Key) :=
  [(lit "space", Key.Space), (lit "enter", Key.Enter), (lit "backspace", Key.Backspace),
   (lit "escape", Key.Escape), (lit "up_arrow", Key.UpArrow), (lit "down_arrow", Key.DownArrow),
   (lit "left_arrow", Key.LeftArrow), (lit "right_arrow", Key.RightArrow)]

/-! ## `double` arithmetic

The source computes the progress fraction in `double`. A finite `double` is modelled by
its exact value `m * 2 ^ e`; division and multiplication return the exact result rounded
to a 53-bit significand, ties to even (IEEE 754 binary64, default rounding). The values
that `ProgressBar` meets lie between `2 ^ (-31)` and `2 ^ 31` in magnitude, or are zero, so
neither overflow nor subnormal results occur. A division by zero has no finite result
(infinity or NaN, whose conversion to `int` is undefined): `Double.div` returns `none`
there, and so does everything computed from it. -/

/-- A finite `double`, the value `m * 2 ^ e`. -/
structure Double where
  m : Int
  e : Int
deriving DecidableEq, Repr

/-- The quotient `n / d` of naturals rounded to the nearest integer, ties to even. -/
def divRoundEven (n d : Nat) : Nat :=
  let q := n / d
  let r := n % d
  if 2 * r < d then q
  else if d < 2 * r then q + 1
  else if q % 2 = 0 then q else q + 1

/-- Helper of `floorLog2`: halve until below 2, at most `fuel` times. -/
def log2Fuel : Nat → Nat → Nat
  | 0, _ => 0
  | fuel + 1, n => if n < 2 then 0 else log2Fuel fuel (n / 2) + 1

/-- The position of the highest set bit of `n` (0 for `n < 2`). -/
def floorLog2 (n : Nat) : Nat := log2Fuel n n

/-- For `n, d > 0`: the integer `l` with `2 ^ l ≤ n / d < 2 ^ (l + 1)`. -/
def floorLog2Quot (n d : Nat) : Int :=
  let l : Int := (floorLog2 n : Int) - (floorLog2 d : Int)
  if d * 2 ^ l.toNat ≤ n * 2 ^ (-l).toNat then l else l - 1

/-- The rational `n / d` (`d > 0`) rounded to a 53-bit significand: the pair `(m, k)` stands
for `m * 2 ^ k`, where `2 ^ 52 ≤ (n / d) / 2 ^ k < 2 ^ 53` before rounding. -/
def roundQuot (n d : Nat) : Nat × Int :=
  if n = 0 then (0, 0)
  else
    let k : Int := floorLog2Quot n d - 52
    (divRoundEven (n * 2 ^ (-k).toNat) (d * 2 ^ k.toNat), k)

/-- Attach the sign to a rounded magnitude. -/
def withSign (neg : Bool) (r : Nat × Int) : Double :=
  ⟨if neg then -(r.1 : Int) else (r.1 : Int), r.2⟩

/-- The conversion `static_cast<double>(i)` of an `int`, which is exact. -/
def Double.ofInt (i : Int) : Double := ⟨i, 0⟩

/-- The `double` division `a / b`: the rounded quotient for `b` different from zero, `none`
for a division by zero. -/
def Double.div (a b : Double) : Option Double :=
  if b.m = 0 then none
  else
    let s : Int := a.e - b.e
    some (withSign (decide (a.m < 0) != decide (b.m < 0))
      (roundQuot (a.m.natAbs * 2 ^ s.toNat) (b.m.natAbs * 2 ^ (-s).toNat)))

/-- The `double` product `a * b`. -/
def Double.mul (a b : Double) : Double :=
  let s : Int := a.e + b.e
  withSign (decide (a.m < 0) != decide (b.m < 0))
    (roundQuot ((a.m.natAbs * b.m.natAbs) * 2 ^ s.toNat) (2 ^ (-s).toNat))

/-- The conversion `static_cast<int>(a)`: truncation toward zero. -/
def Double.toInt (a : Double) : Int :=
  if 0 ≤ a.e then a.m * 2 ^ a.e.toNat else Int.tdiv a.m (2 ^ (-a.e).toNat)

/-! ## `ProgressBar` -/

/-- The string `Color::RESET`. -/
def Color.RESET : Str := 27 :: lit "[0m"

/-- The string `Color::GREEN`. -/
def Color.GREEN : Str := 27 :: lit "[32m"

/-- The string `Color::GRAY`. -/
def Color.GRAY : Str := 27 :: lit "[90m"

/-- The string `Color::WHITE`. -/
def Color.WHITE : Str := 27 :: lit "[37m"

/-- The string `Color::LIGHT_GREEN`. -/
def Color.LIGHT_GREEN : Str := 27 :: lit "[92m"

/-- The string `Color::LIGHT_BLUE`. -/
def Color.LIGHT_BLUE : Str := 27 :: lit "[94m"

/-- The call `std::to_string(i)` for an `int`. -/
def to_string (i : Int) : Str := lit (toString i)

/-- The loop `for (int i = 0; i < n; i++) result.append(piece);`. -/
def appendLoop (result piece : Str) : Nat → Str
  | 0 => result
  | k + 1 => appendLoop (result ++ piece) piece k

/-- The two clamping statements at the head of `ProgressBar`. -/
def clampCurrent (CurrentPercentage MaxPercentage : Int) : Int :=
  let c := if CurrentPercentage < 0 then 0 else CurrentPercentage
  if c > MaxPercentage then MaxPercentage else c

/-- The local `progress`, from the clamped current value: the quotient when
`MaxPercentage != 0`, the constant `0.0` otherwise; `none` if a division by zero is
performed. -/
def progress (CurrentPercentage MaxPercentage : Int) : Option Double :=
  if MaxPercentage ≠ 0 then
    Double.div (Double.ofInt CurrentPercentage) (Double.ofInt MaxPercentage)
  else some (Double.ofInt 0)

/-- The local `filledWidth`. -/
def filledWidth (CurrentPercentage MaxPercentage BarWidth : Int) : Option Int :=
  (progress (clampCurrent CurrentPercentage MaxPercentage) MaxPercentage).map
    (fun p => Double.toInt (Double.mul p (Double.ofInt BarWidth)))

/-- The local `percentageValue`. -/
def percentageValue (CurrentPercentage MaxPercentage : Int) : Option Int :=
  (progress (clampCurrent CurrentPercentage MaxPercentage) MaxPercentage).map
    (fun p => Double.toInt (Double.mul p (Double.ofInt 100)))

/-- The function `ProgressBar`, statement by statement; `none` if the fraction comes from a
division by zero. -/
def ProgressBar (CurrentPercentage MaxPercentage BarWidth : Int)
    (PrefixText SuffixText FillChar UnfilledChar FillColor UnfilledColor TextColor
      PrefixColor SuffixColor BracketColor : Str)
    (ShowPercentage ShowBrackets ResetColorOnCompletion : Bool) : Option Str :=
  match filledWidth CurrentPercentage MaxPercentage BarWidth,
      percentageValue CurrentPercentage MaxPercentage with
  | some filled, some percentage =>
    let remainingWidth := BarWidth - filled
    let result : Str := []
    let result := if PrefixText ≠ [] then result ++ PrefixColor ++ PrefixText else result
    let result := if ShowBrackets then result ++ BracketColor ++ [91] else result
    let result := result ++ FillColor
    let result := appendLoop result FillChar filled.toNat
    let result := result ++ UnfilledColor
    let result := appendLoop result UnfilledChar remainingWidth.toNat
    let result := if ShowBrackets then result ++ BracketColor ++ [93] else result
    let result :=
      if ShowPercentage then result ++ TextColor ++ lit " " ++ to_string percentage ++ [37]
      else result
    let result := if SuffixText ≠ [] then result ++ lit " " ++ SuffixColor ++ SuffixText else result
    let result := if ResetColorOnCompletion then result ++ Color.RESET else result
    some result
  | _, _ => none

/-! ## `GetTimestamp`

The local time that `LocalTimeNow()` returns is a parameter. -/

/-- The fields of `std::tm` that `GetTimestamp` reads. -/
structure tm where
  tm_sec : Int
  tm_min : Int
  tm_hour : Int
  tm_mday : Int
  tm_mon : Int
  tm_year : Int
deriving DecidableEq, Repr

/-- The block `if (!is24HourFormat) ...` of `GetTimestamp`: the values of `hour` and `isPM`
after it. -/
def convertHour (is24HourFormat : Bool) (hour : Int) : Int × Bool :=
  let isPM := false
  if !is24HourFormat then
    if hour = 0 then (12, isPM)
    else if hour = 12 then (hour, true)
    else if hour > 12 then (hour - 12, true)
    else (hour, isPM)
  else (hour, isPM)

/-- The final block of `GetTimestamp`, which writes the AM/PM suffix. -/
def ampmSuffix (addHour addMinute addSecond is24HourFormat isPM : Bool) (colorAMPM : Str) : Str :=
  if !is24HourFormat && (addHour || addMinute || addSecond) then
    colorAMPM ++ (if isPM then lit " PM" else lit " AM") ++ Color.RESET
  else []

/-- The function `GetTimestamp`, statement by statement; `oss` is the text written so far. -/
def GetTimestamp (local_tm : tm)
    (addYear addMonth addDay addHour addMinute addSecond is24HourFormat : Bool)
    (colorYear colorMonth colorDay colorHour colorMinute colorSecond colorAMPM : Str) : Str :=
  let colorReset := Color.RESET
  let year := 1900 + local_tm.tm_year
  let month := local_tm.tm_mon + 1
  let day := local_tm.tm_mday
  let minute := local_tm.tm_min
  let second := local_tm.tm_sec
  let (hour, isPM) := convertHour is24HourFormat local_tm.tm_hour
  let oss : Str := []
  let first := true
  let (oss, first) :=
    if addYear then
      let oss := if !first then oss ++ lit " " else oss
      (oss ++ colorYear ++ to_string year ++ colorReset, false)
    else (oss, first)
  let (oss, first) :=
    if addMonth then
      let oss := if !first then oss ++ lit "-" else oss
      let oss := oss ++ colorMonth
      let oss := if month < 10 then oss ++ lit "0" else oss
      (oss ++ to_string month ++ colorReset, false)
    else (oss, first)
  let (oss, first) :=
    if addDay then
      let oss := if !first then oss ++ lit "-" else oss
      let oss := oss ++ colorDay
      let oss := if day < 10 then oss ++ lit "0" else oss
      (oss ++ to_string day ++ colorReset, false)
    else (oss, first)
  let oss :=
    if addHour then
      let oss := if !first then oss ++ lit " " else oss
      let oss := oss ++ colorHour
      let oss := if hour < 10 then oss ++ lit "0" else oss
      oss ++ to_string hour ++ colorReset
    else oss
  let oss :=
    if addMinute then
      let oss := oss ++ lit ":"
      let oss := oss ++ colorMinute
      let oss := if minute < 10 then oss ++ lit "0" else oss
      oss ++ to_string minute ++ colorReset
    else oss
  let oss :=
    if addSecond then
      let oss := oss ++ lit ":"
      let oss := oss ++ colorSecond
      let oss := if second < 10 then oss ++ lit "0" else oss
      oss ++ to_string second ++ colorReset
    else oss
  oss ++ ampmSuffix addHour addMinute addSecond is24HourFormat isPM colorAMPM

/-- The decimal digit `d` as a byte. -/
def digit (d : Nat) : Byte := Fin.ofNat (48 + d % 10)

/-- A number below 100 written with two decimal digits, zero-padded. -/
def twoDigits (n : Nat) : Str := [digit (n / 10), digit n]

/-- A number below 10000 written with four decimal digits. -/
def fourDigits (n : Nat) : Str := [digit (n / 1000), digit (n / 100), digit (n / 10), digit n]

/-! ## `ShowTooltip`

The width that `GetTerminalWidth()` returns is a parameter; the result is the text written
to `std::cout`. -/

/-- The whitespace test of `iss >> word`, in the classic locale. -/
def isspace (b : Byte) : Bool := decide (b = 32 ∨ (9 ≤ b.val ∧ b.val ≤ 13))

/-- The words that the loop `while (iss >> word)` reads from `message`, in order; `cur` is
the word being read. -/
def splitWords : Str → Str → List Str
  | [], cur => if cur = [] then [] else [cur]
  | b :: rest, cur =>
    if isspace b then
      if cur = [] then splitWords rest [] else cur :: splitWords rest []
    else splitWords rest (cur ++ [b])

/-- The lambda `flushLine` of `ShowTooltip`: the output and `currentLine` after the call. -/
def flushLine (color : Str) (contentWidth pad : Int) (out currentLine : Str) : Str × Str :=
  let spaceRemaining := contentWidth - (currentLine.length : Int)
  let spaceRemaining := if spaceRemaining < 0 then 0 else spaceRemaining
  let lineContent := currentLine ++ List.replicate spaceRemaining.toNat 32
  let out := if pad > 0 then out ++ List.replicate pad.toNat 32 else out
  let out := out ++ color ++ lit "|" ++ Color.RESET ++ lineContent ++ color ++ lit "|"
    ++ Color.RESET ++ [10]
  (out, [])

/-- The loop `while (iss >> word)` of `ShowTooltip` over the words still to read: the output
and `currentLine` after it. `contentWidth` is not negative here, so its conversion to
`size_t` keeps its value. -/
def wrapLoop (color : Str) (contentWidth leftPad : Int) : List Str → Str → Str → Str × Str
  | [], out, currentLine => (out, currentLine)
  | word :: rest, out, currentLine =>
    if currentLine.length + 1 + word.length > contentWidth.toNat then
      let (out, _) := flushLine color contentWidth leftPad out currentLine
      wrapLoop color contentWidth leftPad rest out word
    else
      let currentLine := if currentLine ≠ [] then currentLine ++ lit " " else currentLine
      wrapLoop color contentWidth leftPad rest out (currentLine ++ word)

/-- The function `ShowTooltip`: the text written, or `none` when `boxWidth - 2` is negative,
where `std::string(boxWidth - 2, '-')` throws `std::length_error`. -/
def ShowTooltip (termWidth : Int) (message : Str) (boxWidth : Int) (centerInTerminal : Bool)
    (color : Str) : Option Str :=
  let reset := Color.RESET
  let boxWidth := if boxWidth ≤ 0 then 1 else boxWidth
  let centerInTerminal := if termWidth < boxWidth then false else centerInTerminal
  if boxWidth - 2 < 0 then none
  else
    let border := lit "+" ++ List.replicate (boxWidth - 2).toNat 45 ++ lit "+"
    let leftPad : Int := 0
    let leftPad :=
      if centerInTerminal then
        let leftPad := Int.tdiv (termWidth - boxWidth) 2
        if leftPad < 0 then 0 else leftPad
      else leftPad
    let out : Str := []
    let out := if leftPad > 0 then out ++ List.replicate leftPad.toNat 32 else out
    let out := out ++ color ++ border ++ reset ++ [10]
    let contentWidth := boxWidth - 2
    let (out, currentLine) := wrapLoop color contentWidth leftPad (splitWords message []) out []
    let (out, _) :=
      if currentLine ≠ [] then flushLine color contentWidth leftPad out currentLine
      else (out, currentLine)
    let out := if leftPad > 0 then out ++ List.replicate leftPad.toNat 32 else out
    let out := out ++ color ++ border ++ reset ++ [10]
    some out

/-- The greedy rule as the specification words it, on the lines alone: a word goes on the
current line, after one space when the line is not empty, unless the line with that word
would be longer than `contentWidth`; only then is the line flushed and the word starts the
next line. The result is the list of flushed lines followed by the last line. -/
def greedyLines (contentWidth : Nat) : List Str → Str → List Str
  | [], currentLine => if currentLine ≠ [] then [currentLine] else []
  | word :: rest, currentLine =>
    let withWord := if currentLine ≠ [] then currentLine ++ lit " " ++ word else word
    if withWord.length > contentWidth then currentLine :: greedyLines contentWidth rest word
    else greedyLines contentWidth rest withWord

/-! ## `GetMaskedInput<std::string>`, the branch compiled when `_WIN32` is not defined -/

/-- The loop `while (true)` of `GetMaskedInput`, run for at most `fuel` iterations: the
values of `input`, of the text written to `std::cout` and of the state when the loop is
left by `break`, or `none` when it is still running after `fuel` iterations. -/
def maskedLoop (maskCharacter : Str) : Nat → Str → Str → World → Option (Str × Str × World)
  | 0, _, _, _ => none
  | fuel + 1, input, out, w =>
    let (ch, w) := getchar w
    if ch = 10 ∨ ch = 13 then some (input, out ++ [10], w)
    else if ch = 8 ∨ ch = 127 then
      if input ≠ [] then maskedLoop maskCharacter fuel input.dropLast (out ++ [8, 32, 8]) w
      else maskedLoop maskCharacter fuel input out w
    else if 32 ≤ ch ∧ ch ≤ 126 then
      maskedLoop maskCharacter fuel (input ++ [static_cast_char ch]) (out ++ maskCharacter) w
    else maskedLoop maskCharacter fuel input out w

/-- The function `GetMaskedInput<std::string>` (POSIX branch): the returned optional, the
text written to `std::cout` and the state; `none` when the loop does not end within `fuel`
iterations. -/
def GetMaskedInput (ICANON ECHO : Nat) (maskCharacter : Str) (fuel : Nat) (w : World) :
    Option (Option Str × Str × World) :=
  let input : Str := []
  let oldt := tcgetattr w
  let newt := clearLocalFlags ICANON ECHO oldt
  let w := tcsetattr newt w
  match maskedLoop maskCharacter fuel input [] w with
  | none => none
  | some (input, out, w) =>
    let w := tcsetattr oldt w
    some (some input, out, w)

/-- One step of the fold of the specification: a byte from 32 to 126 is appended, a byte 8
or 127 removes the last character if there is one, every other byte is ignored. -/
def textStep (text : Str) (b : Byte) : Str :=
  if 32 ≤ b.val ∧ b.val ≤ 126 then text ++ [b]
  else if b = 8 ∨ b = 127 then text.dropLast
  else text

/-- The text the specification describes: fold over the bytes typed before Enter, starting
from the empty string; a byte from 32 to 126 is appended, a byte 8 or 127 removes the last
character if there is one, every other byte is ignored. -/
def foldText (typed : List Byte) : Str := typed.foldl textStep []

/-! ## Theorems about `PollKey` -/

/-- The `int` that `getchar` returns for a byte equals a byte constant exactly when the
byte is that constant. -/
theorem cast_eq_iff (x k : Byte) : ((x.val : Int) = (k.val : Int)) ↔ x = k := by
  rw [Fin.ext_iff]; exact Int.ofNat_inj

/-- The function `PollKey` as a case analysis on the unread input. -/
theorem PollKey_eq (ICANON ECHO : Nat) (w : World) :
    PollKey ICANON ECHO w =
      match w.stdin with
      | [] => (⟨Key.Char, 255⟩, { w with reads := w.reads + 1 })
      | b :: rest =>
        if b = 27 then
          match rest with
          | [] => (⟨Key.Escape, 0⟩, { w with stdin := [], reads := w.reads + 2 })
          | c :: rest2 =>
            if c = 91 then
              match rest2 with
              | [] => (⟨Key.Unknown, 0⟩, { w with stdin := [], reads := w.reads + 3 })
              | x :: rest3 =>
                (⟨if x = 65 then Key.UpArrow else if x = 66 then Key.DownArrow
                  else if x = 67 then Key.RightArrow else if x = 68 then Key.LeftArrow
                  else Key.Unknown, 0⟩,
                 { w with stdin := rest3, reads := w.reads + 3 })
            else (⟨Key.Escape, 0⟩, { w with stdin := rest2, reads := w.reads + 2 })
        else if b = 10 ∨ b = 13 then (⟨Key.Enter, 0⟩, { w with stdin := rest, reads := w.reads + 1 })
        else if b = 127 ∨ b = 8 then
          (⟨Key.Backspace, 0⟩, { w with stdin := rest, reads := w.reads + 1 })
        else if b = 32 then (⟨Key.Space, 0⟩, { w with stdin := rest, reads := w.reads + 1 })
        else (⟨Key.Char, b⟩, { w with stdin := rest, reads := w.reads + 1 }) := by
  rcases w with ⟨t, s, n⟩
  have e27 : ∀ x : Byte, ((x.val : Int) = 27) ↔ x = 27 := fun x => cast_eq_iff x 27
  have e91 : ∀ x : Byte, ((x.val : Int) = 91) ↔ x = 91 := fun x => cast_eq_iff x 91
  have e65 : ∀ x : Byte, ((x.val : Int) = 65) ↔ x = 65 := fun x => cast_eq_iff x 65
  have e66 : ∀ x : Byte, ((x.val : Int) = 66) ↔ x = 66 := fun x => cast_eq_iff x 66
  have e67 : ∀ x : Byte, ((x.val : Int) = 67) ↔ x = 67 := fun x => cast_eq_iff x 67
  have e68 : ∀ x : Byte, ((x.val : Int) = 68) ↔ x = 68 := fun x => cast_eq_iff x 68
  have e10 : ∀ x : Byte, ((x.val : Int) = 10) ↔ x = 10 := fun x => cast_eq_iff x 10
  have e13 : ∀ x : Byte, ((x.val : Int) = 13) ↔ x = 13 := fun x => cast_eq_iff x 13
  have e127 : ∀ x : Byte, ((x.val : Int) = 127) ↔ x = 127 := fun x => cast_eq_iff x 127
  have e8 : ∀ x : Byte, ((x.val : Int) = 8) ↔ x = 8 := fun x => cast_eq_iff x 8
  have e32 : ∀ x : Byte, ((x.val : Int) = 32) ↔ x = 32 := fun x => cast_eq_iff x 32
  have hch : ∀ x : Byte, static_cast_char (x.val : Int) = x := by
    intro x
    rcases x with ⟨v, hv⟩
    simp only [static_cast_char, Fin.ofNat, Fin.mk.injEq]
    omega
  have heof : static_cast_char EOF = 255 := by decide
  match s with
  | [] => 
    simp only [PollKey, tcsetattr, tcgetattr, getchar, heof]
    simp [EOF]
  | b :: rest =>
    by_cases h27 : b = 27
    · subst h27
      match rest with
      | [] => simp [PollKey, tcsetattr, tcgetattr, getchar, EOF, e27]
      | c :: rest2 =>
        by_cases h91 : c = 91
        · subst h91
          match rest2 with
          | [] => simp [PollKey, tcsetattr, tcgetattr, getchar, EOF, e27, e91]
          | x :: rest3 =>
            simp only [PollKey, tcsetattr, tcgetattr, getchar, e27, e91, e65, e66, e67, e68]
            split_ifs <;> simp_all
        · simp only [PollKey, tcsetattr, tcgetattr, getchar, e27, e91]
          simp [h91]
    · simp only [PollKey, tcsetattr, tcgetattr, getchar, e27, e10, e13, e127, e8, e32, hch]
      split_ifs <;> simp_all

/-- C1: on an input beginning `27, '[', x` the result is `UpArrow` for `x = 'A'`,
`DownArrow` for `'B'`, `RightArrow` for `'C'`, `LeftArrow` for `'D'` and `Unknown` for every
other byte `x`, and also `Unknown` when the input ends after `27, '['`; `ch` is 0 in each
case. -/
theorem PollKey_csi_final_byte (ICANON ECHO : Nat) (w : World) (x : Byte) (rest : List Byte) :
    (PollKey ICANON ECHO { w with stdin := 27 :: 91 :: x :: rest }).1 =
        { key := if x = 65 then Key.UpArrow else if x = 66 then Key.DownArrow
                 else if x = 67 then Key.RightArrow else if x = 68 then Key.LeftArrow
                 else Key.Unknown,
          ch := 0 }
      ∧ (PollKey ICANON ECHO { w with stdin := [27, 91] }).1 =
        { key := Key.Unknown, ch := 0 } := by
  constructor <;> rw [PollKey_eq] <;> simp

/-- C2: whatever the input and the initial terminal attributes `m`, the attributes after
`PollKey` returns are `m` again; the theorem covers every return path at once. -/
theorem PollKey_restores_mode (ICANON ECHO : Nat) (w : World) :
    (PollKey ICANON ECHO w).2.term = w.term := by
  simp only [PollKey, tcsetattr, tcgetattr]
  split_ifs <;> rfl

/-- C3: when the first byte is 27 and the second read does not yield `'['` (another byte, or
end of input), the result is `Escape`, two reads were made, and the byte of the second read
is gone from the input. -/
theorem PollKey_bare_escape (ICANON ECHO : Nat) (w : World) (rest : List Byte)
    (h : rest.head? ≠ some 91) :
    PollKey ICANON ECHO { w with stdin := 27 :: rest } =
      ({ key := Key.Escape, ch := 0 }, { w with stdin := rest.tail, reads := w.reads + 2 }) := by
  rw [PollKey_eq]
  match rest, h with
  | [], _ => simp
  | c :: rest2, h =>
    have hc : c ≠ 91 := fun e => h (by simp [e])
    simp [hc]

theorem PollKey_bare_escape_witness :
    ([120, 65] : List Byte).head? ≠ some 91
      ∧ PollKey 2 8 ⟨⟨0, 0, 0, 10⟩, [27, 120, 65], 0⟩ =
        ({ key := Key.Escape, ch := 0 }, ⟨⟨0, 0, 0, 10⟩, [65], 2⟩) :=
  ⟨by decide, PollKey_bare_escape 2 8 ⟨⟨0, 0, 0, 10⟩, [], 0⟩ [120, 65] (by decide)⟩

/-- C4, as the claim states it, fails at the byte 0x20: it lies in the range 0x20 to 0x7E,
and `PollKey` on the input `[0x20]` returns `Space` with `ch = 0`, not `Char` with
`ch = 0x20`. -/
theorem PollKey_space_is_not_char :
    (0x20 ≤ (32 : Byte).val ∧ (32 : Byte).val ≤ 0x7E)
      ∧ (PollKey 2 8 ⟨⟨0, 0, 0, 10⟩, [32], 0⟩).1 = { key := Key.Space, ch := 0 }
      ∧ (PollKey 2 8 ⟨⟨0, 0, 0, 10⟩, [32], 0⟩).1 ≠ { key := Key.Char, ch := 32 } := by
  decide

/-- C4 amended: for every byte `b` from 0x21 to 0x7E, `PollKey` on the input `[b]` returns
`Char` carrying `b`. -/
theorem PollKey_printable_char (ICANON ECHO : Nat) (w : World) (b : Byte)
    (hlo : 0x21 ≤ b.val) (hhi : b.val ≤ 0x7E) :
    (PollKey ICANON ECHO { w with stdin := [b] }).1 = { key := Key.Char, ch := b } := by
  rw [PollKey_eq]
  have h27 : b ≠ 27 := fun e => by rw [e] at hlo; exact absurd hlo (by decide)
  have h10 : b ≠ 10 := fun e => by rw [e] at hlo; exact absurd hlo (by decide)
  have h13 : b ≠ 13 := fun e => by rw [e] at hlo; exact absurd hlo (by decide)
  have h8 : b ≠ 8 := fun e => by rw [e] at hlo; exact absurd hlo (by decide)
  have h32 : b ≠ 32 := fun e => by rw [e] at hlo; exact absurd hlo (by decide)
  have h127 : b ≠ 127 := fun e => by rw [e] at hhi; exact absurd hhi (by decide)
  simp [h27, h10, h13, h8, h32, h127]

theorem PollKey_printable_char_witness :
    0x21 ≤ (115 : Byte).val ∧ (115 : Byte).val ≤ 0x7E
      ∧ (PollKey 2 8 ⟨⟨0, 0, 0, 10⟩, [115], 0⟩).1 = { key := Key.Char, ch := 115 } :=
  ⟨by decide, by decide,
    PollKey_printable_char 2 8 ⟨⟨0, 0, 0, 10⟩, [], 0⟩ 115 (by decide) (by decide)⟩

/-- C5: a first byte 10 or 13 gives `Enter`, 127 or 8 gives `Backspace`, 32 gives `Space`;
each time `ch = 0`, one read was made and the input after the call is the input without its
first byte. -/
theorem PollKey_direct_mapped (ICANON ECHO : Nat) (w : World) (rest : List Byte) :
    PollKey ICANON ECHO { w with stdin := 10 :: rest } =
        ({ key := Key.Enter, ch := 0 }, { w with stdin := rest, reads := w.reads + 1 })
      ∧ PollKey ICANON ECHO { w with stdin := 13 :: rest } =
        ({ key := Key.Enter, ch := 0 }, { w with stdin := rest, reads := w.reads + 1 })
      ∧ PollKey ICANON ECHO { w with stdin := 127 :: rest } =
        ({ key := Key.Backspace, ch := 0 }, { w with stdin := rest, reads := w.reads + 1 })
      ∧ PollKey ICANON ECHO { w with stdin := 8 :: rest } =
        ({ key := Key.Backspace, ch := 0 }, { w with stdin := rest, reads := w.reads + 1 })
      ∧ PollKey ICANON ECHO { w with stdin := 32 :: rest } =
        ({ key := Key.Space, ch := 0 }, { w with stdin := rest, reads := w.reads + 1 }) := by
  refine ⟨?_, ?_, ?_, ?_, ?_⟩ <;> rw [PollKey_eq] <;> simp

/-- C6, as the claim states it, fails at the input `[9]` (a tab): it matches none of the
known patterns, and `PollKey` returns `Char` carrying 9, not `Unknown`. -/
theorem PollKey_tab_is_not_unknown :
    knownPattern [9] = false
      ∧ (PollKey 2 8 ⟨⟨0, 0, 0, 10⟩, [9], 0⟩).1 = { key := Key.Char, ch := 9 }
      ∧ (PollKey 2 8 ⟨⟨0, 0, 0, 10⟩, [9], 0⟩).1.key ≠ Key.Unknown := by
  decide

/-- C6 amended: `PollKey` returns a result for every input; the result is `Unknown` exactly
when the input begins `27, '['` and the third read yields none of `'A'`, `'B'`, `'C'`, `'D'`
(another byte, or end of input); and an input that matches no known pattern and begins with
a byte other than 27 decodes to `Char` carrying that byte. -/
theorem PollKey_unknown_iff (ICANON ECHO : Nat) (w : World) :
    (∃ kr w2, PollKey ICANON ECHO w = (kr, w2))
      ∧ ((PollKey ICANON ECHO w).1.key = Key.Unknown ↔
          ∃ rest, w.stdin = 27 :: 91 :: rest ∧ rest.head? ≠ some 65 ∧ rest.head? ≠ some 66
            ∧ rest.head? ≠ some 67 ∧ rest.head? ≠ some 68)
      ∧ (∀ b rest, w.stdin = b :: rest → b ≠ 27 → knownPattern w.stdin = false →
          (PollKey ICANON ECHO w).1 = { key := Key.Char, ch := b }) := by
  refine ⟨⟨_, _, rfl⟩, ?_, ?_⟩
  · rw [PollKey_eq]
    rcases w with ⟨t, s, n⟩
    match s with
    | [] => simp
    | b :: rest =>
      by_cases h27 : b = 27
      · subst h27
        match rest with
        | [] => simp
        | c :: rest2 =>
          by_cases h91 : c = 91
          · subst h91
            match rest2 with
            | [] => simp
            | x :: rest3 =>
              simp only [if_true, List.cons.injEq, true_and, exists_eq_left', List.head?_cons,
                ne_eq, Option.some.injEq]
              split_ifs <;> simp_all
          · simp [h91]
      · simp only [h27, if_false, List.cons.injEq, false_and, exists_false, iff_false]
        split_ifs <;> simp
  · intro b rest hs hb hk
    rw [PollKey_eq, hs]
    rw [hs] at hk
    simp only [knownPattern, hb, if_false, decide_eq_false_iff_not, not_or] at hk
    obtain ⟨h10, h13, h8, h127, h32, -⟩ := hk
    simp [hb, h10, h13, h8, h127, h32]

theorem PollKey_unknown_iff_witness :
    (PollKey 2 8 ⟨⟨0, 0, 0, 10⟩, [9], 0⟩).1 = { key := Key.Char, ch := 9 } :=
  (PollKey_unknown_iff 2 8 ⟨⟨0, 0, 0, 10⟩, [9], 0⟩).2.2 9 [] rfl (by decide) (by decide)

/-- C7: one call makes between 1 and 3 reads: 1 when the first byte is not 27, 2 when the
first byte is 27 and the second read does not yield `'['`, 3 when the input begins `27, '['`.
The input left after the call is the input without its first `r` bytes, `r` being the number
of reads, and the decoded key depends on the unread input alone, not on any earlier call. -/
theorem PollKey_read_count (ICANON ECHO : Nat) (w : World) :
    (w.reads + 1 ≤ (PollKey ICANON ECHO w).2.reads
        ∧ (PollKey ICANON ECHO w).2.reads ≤ w.reads + 3)
      ∧ (PollKey ICANON ECHO w).2.stdin =
          w.stdin.drop ((PollKey ICANON ECHO w).2.reads - w.reads)
      ∧ (w.stdin.head? ≠ some 27 → (PollKey ICANON ECHO w).2.reads = w.reads + 1)
      ∧ (w.stdin.head? = some 27 → w.stdin.tail.head? ≠ some 91 →
          (PollKey ICANON ECHO w).2.reads = w.reads + 2)
      ∧ (w.stdin.head? = some 27 → w.stdin.tail.head? = some 91 →
          (PollKey ICANON ECHO w).2.reads = w.reads + 3)
      ∧ (∀ w2 : World, w2.stdin = w.stdin →
          (PollKey ICANON ECHO w2).1 = (PollKey ICANON ECHO w).1) := by
  have key : ∀ w2 : World, w2.stdin = w.stdin →
      (PollKey ICANON ECHO w2).1 = (PollKey ICANON ECHO w).1 := by
    intro w2 h2
    rw [PollKey_eq, PollKey_eq, h2]
    rcases w with ⟨t, s, n⟩
    match s with
    | [] => rfl
    | b :: rest =>
      by_cases h27 : b = 27
      · subst h27
        match rest with
        | [] => rfl
        | c :: rest2 =>
          by_cases h91 : c = 91
          · subst h91
            match rest2 with
            | [] => rfl
            | x :: rest3 => rfl
          · simp [h91]
      · simp only [h27, if_false]
        split_ifs <;> rfl
  refine ⟨?_, ?_, ?_, ?_, ?_, key⟩ <;> rw [PollKey_eq] <;> rcases w with ⟨t, s, n⟩
  all_goals
    match s with
    | [] => simp
    | b :: rest =>
      by_cases h27 : b = 27
      · subst h27
        match rest with
        | [] => simp
        | c :: rest2 =>
          by_cases h91 : c = 91
          · subst h91
            match rest2 with
            | [] => simp
            | x :: rest3 => simp
          · simp [h91]
      · simp only [h27, if_false]
        split_ifs <;> simp [h27]

theorem PollKey_read_count_witness :
    (PollKey 2 8 ⟨⟨0, 0, 0, 10⟩, [27, 91, 65, 120], 5⟩).2.reads = 5 + 3
      ∧ (PollKey 2 8 ⟨⟨0, 0, 0, 10⟩, [27, 91, 65, 120], 5⟩).2.stdin = [120] :=
  ⟨(PollKey_read_count 2 8 ⟨⟨0, 0, 0, 10⟩, [27, 91, 65, 120], 5⟩).2.2.2.2.1 rfl rfl,
    (PollKey_read_count 2 8 ⟨⟨0, 0, 0, 10⟩, [27, 91, 65, 120], 5⟩).2.1⟩

/-! ## Theorems about `KeyboardEvent` -/

/-- What `KeyboardEvent` returns is the comparison of the name with the polled result. -/
theorem KeyboardEvent_fst (ICANON ECHO : Nat) (desiredKey : Str) (w : World) :
    (KeyboardEvent ICANON ECHO desiredKey w).1 =
      keyMatches desiredKey (PollKey ICANON ECHO w).1 := rfl

/-- C8: for a name whose length is not 1, the comparison is true exactly when the name and
the key form one of the eight pairs of `namedKeys`; so `KeyboardEvent` returns true exactly
then, a name that is none of the eight gives false for every event, and `"enter"` against
`Char 's'` is false. -/
theorem keyMatches_named (name : Str) (kr : KeyResult) (h : name.length ≠ 1) :
    (keyMatches name kr = true ↔ (name, kr.key) ∈ namedKeys)
      ∧ (∀ (ICANON ECHO : Nat) (w : World), (PollKey ICANON ECHO w).1 = kr →
          ((KeyboardEvent ICANON ECHO name w).1 = true ↔ (name, kr.key) ∈ namedKeys))
      ∧ (name ∉ namedKeys.map Prod.fst → keyMatches name kr = false)
      ∧ keyMatches (lit "enter") { key := Key.Char, ch := 115 } = false := by
  have main : keyMatches name kr = true ↔ (name, kr.key) ∈ namedKeys := by
    simp only [keyMatches, namedKeys, h, false_and, if_false, List.mem_cons, Prod.mk.injEq,
      List.mem_singleton, List.not_mem_nil, or_false]
    split_ifs <;> simp_all
  refine ⟨main, ?_, ?_, by decide⟩
  · intro ICANON ECHO w hw
    rw [KeyboardEvent_fst, hw]
    exact main
  · intro hn
    cases hk : keyMatches name kr
    · rfl
    · exact absurd (List.mem_map_of_mem Prod.fst (main.1 hk)) hn

theorem keyMatches_named_witness :
    (lit "up_arrow").length ≠ 1
      ∧ (keyMatches (lit "up_arrow") { key := Key.UpArrow, ch := 0 } = true ↔
          (lit "up_arrow", Key.UpArrow) ∈ namedKeys) :=
  ⟨by decide, (keyMatches_named (lit "up_arrow") { key := Key.UpArrow, ch := 0 } (by decide)).1⟩

/-- C9: for a one-byte name `[c]` the comparison is true exactly when the key is `Char` and
`ch` is the byte `c`; so no event other than `Char` matches, `KeyboardEvent` returns true
exactly then, and the comparison is case-sensitive (`"s"` against `Char 'S'` is false). -/
theorem keyMatches_single_char (c : Byte) (kr : KeyResult) :
    (keyMatches [c] kr = true ↔ kr.key = Key.Char ∧ kr.ch = c)
      ∧ (kr.key ≠ Key.Char → keyMatches [c] kr = false)
      ∧ (∀ (ICANON ECHO : Nat) (w : World), (PollKey ICANON ECHO w).1 = kr →
          ((KeyboardEvent ICANON ECHO [c] w).1 = true ↔ kr.key = Key.Char ∧ kr.ch = c))
      ∧ keyMatches (lit "s") { key := Key.Char, ch := 83 } = false
      ∧ keyMatches (lit "s") { key := Key.Char, ch := 115 } = true := by
  have main : keyMatches [c] kr = true ↔ kr.key = Key.Char ∧ kr.ch = c := by
    by_cases hk : kr.key = Key.Char
    · simp [keyMatches, hk]
    · have e : ∀ s : String, ([c] : Str) = lit s → 1 = (lit s).length :=
        fun s hs => congrArg List.length hs
      have n1 : ([c] : Str) ≠ lit "space" := fun hs => absurd (e _ hs) (by decide)
      have n2 : ([c] : Str) ≠ lit "enter" := fun hs => absurd (e _ hs) (by decide)
      have n3 : ([c] : Str) ≠ lit "backspace" := fun hs => absurd (e _ hs) (by decide)
      have n4 : ([c] : Str) ≠ lit "escape" := fun hs => absurd (e _ hs) (by decide)
      have n5 : ([c] : Str) ≠ lit "up_arrow" := fun hs => absurd (e _ hs) (by decide)
      have n6 : ([c] : Str) ≠ lit "down_arrow" := fun hs => absurd (e _ hs) (by decide)
      have n7 : ([c] : Str) ≠ lit "left_arrow" := fun hs => absurd (e _ hs) (by decide)
      have n8 : ([c] : Str) ≠ lit "right_arrow" := fun hs => absurd (e _ hs) (by decide)
      simp only [keyMatches, hk, and_false, false_and, if_false, n1, n2, n3, n4, n5, n6, n7, n8]
      simp
  refine ⟨main, ?_, ?_, by decide, by decide⟩
  · intro hk
    cases hm : keyMatches [c] kr
    · rfl
    · exact absurd (main.1 hm).1 hk
  · intro ICANON ECHO w hw
    rw [KeyboardEvent_fst, hw]
    exact main

theorem keyMatches_single_char_witness :
    (keyMatches [115] { key := Key.Space, ch := 0 } = false)
      ∧ (keyMatches [115] { key := Key.Char, ch := 115 } = true ↔
          Key.Char = Key.Char ∧ (115 : Byte) = 115) :=
  ⟨(keyMatches_single_char 115 { key := Key.Space, ch := 0 }).2.1 (by decide),
    (keyMatches_single_char 115 { key := Key.Char, ch := 115 }).1⟩

/-! ## Theorems about the `double` model -/

/-- The result of `divRoundEven n d` is a nearest integer to `n / d`: it differs from the
quotient by at most one half. -/
theorem divRoundEven_nearest (n d : Nat) (hd : 0 < d) :
    2 * (divRoundEven n d * d) ≤ 2 * n + d ∧ 2 * n ≤ 2 * (divRoundEven n d * d) + d := by
  have h1 : d * (n / d) + n % d = n := Nat.div_add_mod n d
  have h2 : n % d < d := Nat.mod_lt n hd
  have h3 : (n / d + 1) * d = d * (n / d) + d := by ring
  have h4 : n / d * d = d * (n / d) := by ring
  simp only [divRoundEven]
  split_ifs <;> simp only [h3, h4] <;> omega

/-- In a tie `divRoundEven` returns the even neighbour. -/
theorem divRoundEven_tie (n d : Nat) (h : 2 * (n % d) = d) : divRoundEven n d % 2 = 0 := by
  simp only [divRoundEven]
  split_ifs <;> omega

theorem log2Fuel_bounds (fuel : Nat) : ∀ n : Nat, 0 < n → n ≤ fuel →
    2 ^ log2Fuel fuel n ≤ n ∧ n < 2 ^ (log2Fuel fuel n + 1) := by
  induction fuel with
  | zero => intro n h0 h1; omega
  | succ f ih =>
    intro n h0 h1
    simp only [log2Fuel]
    split_ifs with h2
    · simp; omega
    · have := ih (n / 2) (by omega) (by omega)
      rw [pow_succ, pow_succ]
      omega

/-- For `n > 0`, `floorLog2 n` is the position of the highest set bit of `n`. -/
theorem floorLog2_bounds (n : Nat) (h : 0 < n) :
    2 ^ floorLog2 n ≤ n ∧ n < 2 ^ (floorLog2 n + 1) :=
  log2Fuel_bounds n n h (Nat.le_refl n)

/-- For `n, d > 0` the integer `l = floorLog2Quot n d` satisfies
`2 ^ l ≤ n / d < 2 ^ (l + 1)`, written without division. -/
theorem floorLog2Quot_bounds (n d : Nat) (hn : 0 < n) (hd : 0 < d) :
    d * 2 ^ (floorLog2Quot n d).toNat ≤ n * 2 ^ (-(floorLog2Quot n d)).toNat
      ∧ n * 2 ^ (-(floorLog2Quot n d + 1)).toNat < d * 2 ^ (floorLog2Quot n d + 1).toNat := by
  obtain ⟨ha1, ha2⟩ := floorLog2_bounds n hn
  obtain ⟨hb1, hb2⟩ := floorLog2_bounds d hd
  simp only [floorLog2Quot]
  generalize floorLog2 n = a at *
  generalize floorLog2 d = b at *
  split_ifs with hc
  · refine ⟨hc, ?_⟩
    rcases Nat.lt_or_ge a b with hab | hab
    · -- a < b
      obtain ⟨c, rfl⟩ : ∃ c, b = a + 1 + c := ⟨b - (a + 1), by omega⟩
      have e1 : (-((a : Int) - ((a + 1 + c : Nat) : Int) + 1)).toNat = c := by omega
      have e2 : ((a : Int) - ((a + 1 + c : Nat) : Int) + 1).toNat = 0 := by omega
      rw [e1, e2]
      calc n * 2 ^ c < 2 ^ (a + 1) * 2 ^ c := Nat.mul_lt_mul_of_pos_right ha2 (by positivity)
        _ = 2 ^ (a + 1 + c) := (pow_add 2 (a + 1) c).symm
        _ ≤ d := hb1
        _ = d * 2 ^ 0 := by simp
    · obtain ⟨c, rfl⟩ : ∃ c, a = b + c := ⟨a - b, by omega⟩
      have e1 : (-(((b + c : Nat) : Int) - (b : Int) + 1)).toNat = 0 := by omega
      have e2 : (((b + c : Nat) : Int) - (b : Int) + 1).toNat = c + 1 := by omega
      rw [e1, e2]
      calc n * 2 ^ 0 = n := by simp
        _ < 2 ^ (b + c + 1) := ha2
        _ = 2 ^ b * 2 ^ (c + 1) := by rw [← pow_add]; congr 1
        _ ≤ d * 2 ^ (c + 1) := Nat.mul_le_mul_right _ hb1
  · have e0 : ((a : Int) - (b : Int) - 1 + 1) = (a : Int) - (b : Int) := by omega
    rw [e0]
    refine ⟨?_, by omega⟩
    rcases Nat.lt_or_ge b a with hab | hab
    · obtain ⟨c, rfl⟩ : ∃ c, a = b + 1 + c := ⟨a - (b + 1), by omega⟩
      have e1 : (((b + 1 + c : Nat) : Int) - (b : Int) - 1).toNat = c := by omega
      have e2 : (-(((b + 1 + c : Nat) : Int) - (b : Int) - 1)).toNat = 0 := by omega
      rw [e1, e2]
      calc d * 2 ^ c ≤ 2 ^ (b + 1) * 2 ^ c := Nat.mul_le_mul_right _ (Nat.le_of_lt hb2)
        _ = 2 ^ (b + 1 + c) := (pow_add 2 (b + 1) c).symm
        _ ≤ n := ha1
        _ = n * 2 ^ 0 := by simp
    · obtain ⟨c, rfl⟩ : ∃ c, b = a + c := ⟨b - a, by omega⟩
      have e1 : ((a : Int) - ((a + c : Nat) : Int) - 1).toNat = 0 := by omega
      have e2 : (-((a : Int) - ((a + c : Nat) : Int) - 1)).toNat = c + 1 := by omega
      rw [e1, e2]
      calc d * 2 ^ 0 = d := by simp
        _ ≤ 2 ^ (a + c + 1) := Nat.le_of_lt hb2
        _ = 2 ^ a * 2 ^ (c + 1) := by rw [← pow_add]; congr 1
        _ ≤ n * 2 ^ (c + 1) := Nat.mul_le_mul_right _ ha1

/-- For `n, d > 0`, `roundQuot n d = (m, k)` is `n / d` correctly rounded to 53 bits: the
significand `m` lies between `2 ^ 52` and `2 ^ 53`, and `m * 2 ^ k` differs from `n / d` by
at most half a unit `2 ^ k` (both stated without division). -/
theorem roundQuot_spec (n d : Nat) (hn : 0 < n) (hd : 0 < d) :
    2 ^ 52 ≤ (roundQuot n d).1 ∧ (roundQuot n d).1 ≤ 2 ^ 53
      ∧ 2 * ((roundQuot n d).1 * (d * 2 ^ (roundQuot n d).2.toNat))
          ≤ 2 * (n * 2 ^ (-(roundQuot n d).2).toNat) + d * 2 ^ (roundQuot n d).2.toNat
      ∧ 2 * (n * 2 ^ (-(roundQuot n d).2).toNat)
          ≤ 2 * ((roundQuot n d).1 * (d * 2 ^ (roundQuot n d).2.toNat))
            + d * 2 ^ (roundQuot n d).2.toNat := by
  obtain ⟨hl1, hl2⟩ := floorLog2Quot_bounds n d hn hd
  have hn0 : n ≠ 0 := Nat.pos_iff_ne_zero.mp hn
  simp only [roundQuot, hn0, if_false]
  generalize floorLog2Quot n d = l at *
  have hD : 0 < d * 2 ^ (l - 52).toNat := Nat.mul_pos hd (by positivity)
  obtain ⟨hr1, hr2⟩ := divRoundEven_nearest (n * 2 ^ (-(l - 52)).toNat) (d * 2 ^ (l - 52).toNat) hD
  have hboth : 2 ^ 52 * (d * 2 ^ (l - 52).toNat) ≤ n * 2 ^ (-(l - 52)).toNat
      ∧ n * 2 ^ (-(l - 52)).toNat < 2 ^ 53 * (d * 2 ^ (l - 52).toNat) := by
    rcases le_or_lt 52 l with h52 | h52
    · obtain ⟨c, rfl⟩ : ∃ c : Nat, l = 52 + c := ⟨(l - 52).toNat, by omega⟩
      have e1 : (52 + (c : Int)).toNat = 52 + c := by omega
      have e2 : (-(52 + (c : Int))).toNat = 0 := by omega
      have e3 : (52 + (c : Int) + 1).toNat = 53 + c := by omega
      have e4 : (-(52 + (c : Int) + 1)).toNat = 0 := by omega
      have e5 : (52 + (c : Int) - 52).toNat = c := by omega
      have e6 : (-(52 + (c : Int) - 52)).toNat = 0 := by omega
      rw [e1, e2] at hl1
      rw [e3, e4] at hl2
      rw [e5, e6]
      rw [pow_add] at hl1 hl2
      constructor
      · calc 2 ^ 52 * (d * 2 ^ c) = d * (2 ^ 52 * 2 ^ c) := by ring
          _ ≤ n * 2 ^ 0 := hl1
      · calc n * 2 ^ 0 < d * (2 ^ 53 * 2 ^ c) := hl2
          _ = 2 ^ 53 * (d * 2 ^ c) := by ring
    · rcases le_or_lt 0 l with h0 | h0
      · obtain ⟨c, rfl⟩ : ∃ c : Nat, l = c := ⟨l.toNat, by omega⟩
        obtain ⟨e, he⟩ : ∃ e : Nat, c + e = 52 := ⟨52 - c, by omega⟩
        have e1 : ((c : Int)).toNat = c := by omega
        have e2 : (-((c : Int))).toNat = 0 := by omega
        have e3 : ((c : Int) + 1).toNat = c + 1 := by omega
        have e4 : (-((c : Int) + 1)).toNat = 0 := by omega
        have e5 : ((c : Int) - 52).toNat = 0 := by omega
        have e6 : (-((c : Int) - 52)).toNat = e := by omega
        rw [e1, e2] at hl1
        rw [e3, e4] at hl2
        rw [e5, e6]
        have p52 : (2 : Nat) ^ 52 = 2 ^ c * 2 ^ e := by rw [← pow_add, he]
        have p53 : (2 : Nat) ^ 53 = 2 ^ (c + 1) * 2 ^ e := by
          rw [← pow_add]; congr 1; omega
        constructor
        · calc 2 ^ 52 * (d * 2 ^ 0) = (d * 2 ^ c) * 2 ^ e := by rw [p52]; ring
            _ ≤ (n * 2 ^ 0) * 2 ^ e := Nat.mul_le_mul_right _ hl1
            _ = n * 2 ^ e := by ring
        · calc n * 2 ^ e = (n * 2 ^ 0) * 2 ^ e := by ring
            _ < (d * 2 ^ (c + 1)) * 2 ^ e := Nat.mul_lt_mul_of_pos_right hl2 (by positivity)
            _ = 2 ^ 53 * (d * 2 ^ 0) := by rw [p53]; ring
      · obtain ⟨c, rfl⟩ : ∃ c : Nat, l = -((c : Int) + 1) := ⟨(-l - 1).toNat, by omega⟩
        have e1 : (-((c : Int) + 1)).toNat = 0 := by omega
        have e2 : (-(-((c : Int) + 1))).toNat = c + 1 := by omega
        have e3 : (-((c : Int) + 1) + 1).toNat = 0 := by omega
        have e4 : (-(-((c : Int) + 1) + 1)).toNat = c := by omega
        have e5 : (-((c : Int) + 1) - 52).toNat = 0 := by omega
        have e6 : (-(-((c : Int) + 1) - 52)).toNat = c + 1 + 52 := by omega
        rw [e1, e2] at hl1
        rw [e3, e4] at hl2
        rw [e5, e6]
        constructor
        · calc 2 ^ 52 * (d * 2 ^ 0) = (d * 2 ^ 0) * 2 ^ 52 := by ring
            _ ≤ (n * 2 ^ (c + 1)) * 2 ^ 52 := Nat.mul_le_mul_right _ hl1
            _ = n * 2 ^ (c + 1 + 52) := by rw [pow_add (2 : Nat) (c + 1) 52]; ring
        · calc n * 2 ^ (c + 1 + 52) = (n * 2 ^ c) * 2 ^ 53 := by
                rw [show c + 1 + 52 = c + 53 by omega, pow_add (2 : Nat) c 53]; ring
            _ < (d * 2 ^ 0) * 2 ^ 53 := Nat.mul_lt_mul_of_pos_right hl2 (by positivity)
            _ = 2 ^ 53 * (d * 2 ^ 0) := by ring
  obtain ⟨hlo, hhi⟩ := hboth
  generalize divRoundEven (n * 2 ^ (-(l - 52)).toNat) (d * 2 ^ (l - 52).toNat) = m at *
  generalize n * 2 ^ (-(l - 52)).toNat = N at *
  generalize d * 2 ^ (l - 52).toNat = D at *
  refine ⟨?_, ?_, hr1, hr2⟩
  · by_contra hcon
    have hm : m + 1 ≤ 2 ^ 52 := by omega
    have : (m + 1) * D ≤ 2 ^ 52 * D := Nat.mul_le_mul_right D hm
    have e : (m + 1) * D = m * D + D := by ring
    omega
  · by_contra hcon
    have hm : 2 ^ 53 + 1 ≤ m := by omega
    have : (2 ^ 53 + 1) * D ≤ m * D := Nat.mul_le_mul_right D hm
    have e : (2 ^ 53 + 1) * D = 2 ^ 53 * D + D := by ring
    omega

/-! ## Theorems about `ProgressBar` -/

set_option maxRecDepth 100000 in
/-- C10: `ProgressBar` evaluated where the claim fails. For current = 29, max = 100 the
`double` quotient is just below 0.29 and its product with 100 just below 29, so with
width 100 the bar has 28 fill glyphs and 72 unfilled ones and the percentage shown is 28,
where the claim gives `floor(29 * 100 / 100) = 29` for both; the call that the demonstration
loop of the source makes at `i = 29` (width 50) shows `28%` as well. For current = 50,
max = 100, width 10 the result is the one the claim states. -/
theorem ProgressBar_29_of_100 :
    filledWidth 29 100 100 = some 28 ∧ (29 * 100 : Int) / 100 = 29
      ∧ percentageValue 29 100 = some 28 ∧ (100 * 29 : Int) / 100 = 29
      ∧ ProgressBar 29 100 100 [] [] (lit "=") (lit "-") [] [] [] [] [] [] true false false =
          some (List.replicate 28 61 ++ List.replicate 72 45 ++ lit " 28%")
      ∧ ProgressBar 29 100 50 (lit "Progress:") (lit "Processing") (lit "=") (lit "-")
          Color.GREEN Color.GRAY Color.WHITE Color.LIGHT_GREEN Color.WHITE Color.LIGHT_BLUE
          true true true =
          some (Color.LIGHT_GREEN ++ lit "Progress:" ++ Color.LIGHT_BLUE ++ lit "["
            ++ Color.GREEN ++ List.replicate 14 61 ++ Color.GRAY ++ List.replicate 36 45
            ++ Color.LIGHT_BLUE ++ lit "]" ++ Color.WHITE ++ lit " 28%"
            ++ lit " " ++ Color.WHITE ++ lit "Processing" ++ Color.RESET)
      ∧ ProgressBar 50 100 10 [] [] (lit "=") (lit "-") [] [] [] [] [] [] true false false =
          some (lit "=====----- 50%") := by
  refine ⟨by decide, by decide, by decide, by decide, by decide, by decide, by decide⟩

/-- The loop `appendLoop` appends `n` copies of `piece`. -/
theorem appendLoop_eq (result piece : Str) (n : Nat) :
    appendLoop result piece n = result ++ (List.replicate n piece).flatten := by
  induction n generalizing result with
  | zero => simp [appendLoop]
  | succ k ih => simp [appendLoop, ih, List.replicate_succ]

/-- C11: with `MaxPercentage = 0` no division by zero is performed: a division by the zero
`MaxPercentage` has no result in the model (`Double.div` gives `none`), and `progress` has
one, the constant 0 of the guard, whatever `CurrentPercentage` is. So `ProgressBar` returns
a string: no `FillChar` glyph is emitted, the unfilled part is `BarWidth` copies of
`UnfilledChar`, and the percentage shown is 0. -/
theorem ProgressBar_max_zero (CurrentPercentage : Int) (BarWidth : Nat)
    (PrefixText SuffixText FillChar UnfilledChar FillColor UnfilledColor TextColor
      PrefixColor SuffixColor BracketColor : Str)
    (ShowPercentage ShowBrackets ResetColorOnCompletion : Bool) :
    (∀ a : Double, Double.div a (Double.ofInt 0) = none)
      ∧ progress (clampCurrent CurrentPercentage 0) 0 = some (Double.ofInt 0)
      ∧ filledWidth CurrentPercentage 0 BarWidth = some 0
      ∧ percentageValue CurrentPercentage 0 = some 0
      ∧ ProgressBar CurrentPercentage 0 BarWidth PrefixText SuffixText FillChar UnfilledChar
          FillColor UnfilledColor TextColor PrefixColor SuffixColor BracketColor
          ShowPercentage ShowBrackets ResetColorOnCompletion =
        some ((if PrefixText ≠ [] then PrefixColor ++ PrefixText else [])
          ++ (if ShowBrackets then BracketColor ++ [91] else [])
          ++ FillColor
          ++ UnfilledColor ++ (List.replicate BarWidth UnfilledChar).flatten
          ++ (if ShowBrackets then BracketColor ++ [93] else [])
          ++ (if ShowPercentage then TextColor ++ lit " " ++ lit "0" ++ [37] else [])
          ++ (if SuffixText ≠ [] then lit " " ++ SuffixColor ++ SuffixText else [])
          ++ (if ResetColorOnCompletion then Color.RESET else [])) := by
  have hd : ∀ a : Double, Double.div a (Double.ofInt 0) = none := by
    intro a
    simp [Double.div, Double.ofInt]
  have hp : progress (clampCurrent CurrentPercentage 0) 0 = some (Double.ofInt 0) := by
    simp [progress]
  have hmul : ∀ b : Double, Double.toInt (Double.mul (Double.ofInt 0) b) = 0 := by
    intro b
    simp [Double.mul, Double.ofInt, roundQuot, withSign, Double.toInt]
  have hf : filledWidth CurrentPercentage 0 BarWidth = some 0 := by
    simp only [filledWidth, hp, Option.map_some', hmul]
  have hv : percentageValue CurrentPercentage 0 = some 0 := by
    simp only [percentageValue, hp, Option.map_some', hmul]
  refine ⟨hd, hp, hf, hv, ?_⟩
  have h0 : to_string 0 = lit "0" := by decide
  simp only [ProgressBar, hf, hv, appendLoop_eq, h0]
  cases ShowPercentage <;> cases ShowBrackets <;> cases ResetColorOnCompletion <;>
    by_cases h1 : PrefixText = [] <;> by_cases h2 : SuffixText = [] <;>
    simp [h1, h2]

/-! ## Theorems about `GetTimestamp` -/

/-- A decimal digit character is the byte `48 + d`. -/
theorem digitChar_byte : ∀ d : Nat, d < 10 →
    (Fin.ofNat (Nat.digitChar d).toNat : Byte) = digit d := by decide

/-- The text of a number below 100: one digit below 10, two digits from 10 on. -/
theorem to_string_small : ∀ n : Nat, n < 100 →
    to_string (n : Int) = if n < 10 then [digit n] else twoDigits n := by decide

/-- The zero-padding statement followed by the number writes two digits. -/
theorem pad_two_digits (oss : Str) (n : Nat) (h : n < 100) :
    (if (n : Int) < 10 then oss ++ lit "0" else oss) ++ to_string (n : Int) =
      oss ++ twoDigits n := by
  rw [to_string_small n h]
  by_cases h10 : n < 10
  · have e : (n : Int) < 10 := by omega
    have d0 : n / 10 = 0 := by omega
    have l0 : lit "0" = [digit 0] := by decide
    simp [h10, e, twoDigits, d0, l0]
  · have e : ¬ (n : Int) < 10 := by omega
    simp [h10, e]

/-- The text of a number with four decimal digits. -/
theorem to_string_four (n : Nat) (h1 : 1000 ≤ n) (h2 : n < 10000) :
    to_string (n : Int) = fourDigits n := by
  obtain ⟨f, hf⟩ : ∃ f, n + 1 = f + 1 + 1 + 1 + 1 := ⟨n - 3, by omega⟩
  have e1 : ¬ n / 10 = 0 := by omega
  have e2 : ¬ n / 10 / 10 = 0 := by omega
  have e3 : ¬ n / 10 / 10 / 10 = 0 := by omega
  have e4 : n / 10 / 10 / 10 / 10 = 0 := by omega
  have hd : Nat.toDigits 10 n = [Nat.digitChar (n / 10 / 10 / 10 % 10),
      Nat.digitChar (n / 10 / 10 % 10), Nat.digitChar (n / 10 % 10), Nat.digitChar (n % 10)] := by
    rw [Nat.toDigits, hf]
    simp only [Nat.toDigitsCore, e1, e2, e3, e4, if_true, if_false]
  have hs : toString (n : Int) = String.mk (Nat.toDigits 10 n) := rfl
  simp only [to_string, hs, hd, lit, fourDigits, List.map]
  rw [digitChar_byte _ (Nat.mod_lt _ (by decide)), digitChar_byte _ (Nat.mod_lt _ (by decide)),
    digitChar_byte _ (Nat.mod_lt _ (by decide)), digitChar_byte _ (Nat.mod_lt _ (by decide))]
  simp only [digit, Nat.mod_mod]
  have a1 : n / 10 / 10 / 10 % 10 = n / 1000 % 10 := by omega
  have a2 : n / 10 / 10 % 10 = n / 100 % 10 := by omega
  rw [a1, a2]

/-- C12: with the six component flags false the result is the empty string, for every local
time, either value of `is24HourFormat` and every choice of the seven colour strings. -/
theorem GetTimestamp_no_component (local_tm : tm) (is24HourFormat : Bool)
    (colorYear colorMonth colorDay colorHour colorMinute colorSecond colorAMPM : Str) :
    GetTimestamp local_tm false false false false false false is24HourFormat
      colorYear colorMonth colorDay colorHour colorMinute colorSecond colorAMPM = [] := by
  simp [GetTimestamp, ampmSuffix]

/-- C13, as the claim states it, fails: for 2024-01-05 13:07:09 the default call returns 43
bytes, not the 19 bytes of `2024-01-05 13:07:09`, because `Color::RESET` is written after
each of the six components. -/
theorem GetTimestamp_default_has_resets :
    GetTimestamp ⟨9, 7, 13, 5, 0, 124⟩ true true true true true true true [] [] [] [] [] [] []
        ≠ lit "2024-01-05 13:07:09"
      ∧ (GetTimestamp ⟨9, 7, 13, 5, 0, 124⟩ true true true true true true true
          [] [] [] [] [] [] []).length = 43
      ∧ GetTimestamp ⟨9, 7, 13, 5, 0, 124⟩ true true true true true true true [] [] [] [] [] [] []
        = lit "2024" ++ Color.RESET ++ lit "-01" ++ Color.RESET ++ lit "-05" ++ Color.RESET
          ++ lit " 13" ++ Color.RESET ++ lit ":07" ++ Color.RESET ++ lit ":09" ++ Color.RESET := by
  decide

/-- C13 amended: for a local time with year `y` of four digits, month `mo`, day `d`, hour
`h`, minute `mi` and second `s`, the default call (six flags true, 24-hour format, empty
colours) returns the year in four digits and the other five fields in two zero-padded
digits, in the order and with the separators `YYYY-MM-DD HH:MM:SS`, each field followed by
`Color::RESET`; the result has 43 bytes. -/
theorem GetTimestamp_default (y mo d h mi s : Nat) (hy1 : 1000 ≤ y) (hy2 : y ≤ 9999)
    (hmo1 : 1 ≤ mo) (hmo2 : mo ≤ 12) (hd1 : 1 ≤ d) (hd2 : d ≤ 31) (hh : h ≤ 23)
    (hmi : mi ≤ 59) (hs : s ≤ 60) :
    GetTimestamp ⟨s, mi, h, d, (mo : Int) - 1, (y : Int) - 1900⟩
        true true true true true true true [] [] [] [] [] [] [] =
      fourDigits y ++ Color.RESET ++ lit "-" ++ twoDigits mo ++ Color.RESET
        ++ lit "-" ++ twoDigits d ++ Color.RESET ++ lit " " ++ twoDigits h ++ Color.RESET
        ++ lit ":" ++ twoDigits mi ++ Color.RESET ++ lit ":" ++ twoDigits s ++ Color.RESET
      ∧ (GetTimestamp ⟨s, mi, h, d, (mo : Int) - 1, (y : Int) - 1900⟩
        true true true true true true true [] [] [] [] [] [] []).length = 43 := by
  have ey : (1900 : Int) + ((y : Int) - 1900) = (y : Int) := by omega
  have emo : (mo : Int) - 1 + 1 = (mo : Int) := by omega
  have main : GetTimestamp ⟨s, mi, h, d, (mo : Int) - 1, (y : Int) - 1900⟩
        true true true true true true true [] [] [] [] [] [] [] =
      fourDigits y ++ Color.RESET ++ lit "-" ++ twoDigits mo ++ Color.RESET
        ++ lit "-" ++ twoDigits d ++ Color.RESET ++ lit " " ++ twoDigits h ++ Color.RESET
        ++ lit ":" ++ twoDigits mi ++ Color.RESET ++ lit ":" ++ twoDigits s ++ Color.RESET := by
    simp only [GetTimestamp, convertHour, ampmSuffix, ey, emo, Bool.not_true, Bool.false_and,
      if_true, if_false, Bool.false_eq_true, List.nil_append, List.append_nil,
      to_string_four y hy1 (by omega), pad_two_digits _ mo (by omega),
      pad_two_digits _ d (by omega), pad_two_digits _ h (by omega),
      pad_two_digits _ mi (by omega), pad_two_digits _ s (by omega)]
    simp
  refine ⟨main, ?_⟩
  rw [main]
  simp [fourDigits, twoDigits, Color.RESET, lit]

theorem GetTimestamp_default_witness :
    (1000 ≤ 2024 ∧ 2024 ≤ 9999 ∧ 1 ≤ 1 ∧ 1 ≤ 12 ∧ 1 ≤ 5 ∧ 5 ≤ 31 ∧ 13 ≤ 23 ∧ 7 ≤ 59 ∧ 9 ≤ 60)
      ∧ GetTimestamp ⟨9, 7, 13, 5, ((1 : Nat) : Int) - 1, ((2024 : Nat) : Int) - 1900⟩
        true true true true true true true [] [] [] [] [] [] [] =
      fourDigits 2024 ++ Color.RESET ++ lit "-" ++ twoDigits 1 ++ Color.RESET
        ++ lit "-" ++ twoDigits 5 ++ Color.RESET ++ lit " " ++ twoDigits 13 ++ Color.RESET
        ++ lit ":" ++ twoDigits 7 ++ Color.RESET ++ lit ":" ++ twoDigits 9 ++ Color.RESET :=
  ⟨by decide,
    (GetTimestamp_default 2024 1 5 13 7 9 (by decide) (by decide) (by decide) (by decide)
      (by decide) (by decide) (by decide) (by decide) (by decide)).1⟩

/-- The conversion `static_cast<char>` gives back the byte that `getchar` returned. -/
theorem static_cast_char_byte (x : Byte) : static_cast_char (x.val : Int) = x := by
  rcases x with ⟨v, hv⟩
  simp only [static_cast_char, Fin.ofNat, Fin.mk.injEq]
  omega

/-- The loop of `GetMaskedInput` on an input whose first Enter byte `e` comes after the bytes
`typed`: with enough iterations it ends at `e`, having folded `typed` into `input`. -/
theorem maskedLoop_until_enter (maskCharacter : Str) (e : Byte) (rest : List Byte)
    (he : e = 10 ∨ e = 13) (t : termios) :
    ∀ (typed : List Byte) (fuel : Nat) (input out : Str) (n : Nat),
      (∀ b ∈ typed, b ≠ 10 ∧ b ≠ 13) → typed.length + 1 ≤ fuel →
      ∃ out2, maskedLoop maskCharacter fuel input out ⟨t, typed ++ e :: rest, n⟩ =
        some (typed.foldl textStep input, out2, ⟨t, rest, n + typed.length + 1⟩) := by
  have e10 : ∀ x : Byte, ((x.val : Int) = 10) ↔ x = 10 := fun x => cast_eq_iff x 10
  have e13 : ∀ x : Byte, ((x.val : Int) = 13) ↔ x = 13 := fun x => cast_eq_iff x 13
  have e8 : ∀ x : Byte, ((x.val : Int) = 8) ↔ x = 8 := fun x => cast_eq_iff x 8
  have e127 : ∀ x : Byte, ((x.val : Int) = 127) ↔ x = 127 := fun x => cast_eq_iff x 127
  have elo : ∀ x : Byte, ((32 : Int) ≤ (x.val : Int)) ↔ 32 ≤ x.val := fun x => by omega
  have ehi : ∀ x : Byte, ((x.val : Int) ≤ 126) ↔ x.val ≤ 126 := fun x => by omega
  intro typed
  induction typed with
  | nil =>
    intro fuel input out n _ hf
    obtain ⟨f, rfl⟩ : ∃ f, fuel = f + 1 := ⟨fuel - 1, by simp at hf; omega⟩
    refine ⟨out ++ [10], ?_⟩
    simp only [maskedLoop, getchar, List.nil_append, e10, e13, he, if_true, List.foldl_nil,
      List.length_nil, Nat.add_zero]
  | cons b typed ih =>
    intro fuel input out n hb hf
    obtain ⟨f, rfl⟩ : ∃ f, fuel = f + 1 := ⟨fuel - 1, by simp at hf; omega⟩
    have hf2 : typed.length + 1 ≤ f := by simp at hf; omega
    have hb2 : ∀ c ∈ typed, c ≠ 10 ∧ c ≠ 13 := fun c hc => hb c (List.mem_cons_of_mem _ hc)
    obtain ⟨hb10, hb13⟩ := hb b (List.mem_cons_self _ _)
    have hlen : n + 1 + typed.length + 1 = n + (b :: typed).length + 1 := by
      simp only [List.length_cons]; omega
    simp only [maskedLoop, getchar, List.cons_append, e10, e13, e8, e127, elo, ehi, hb10, hb13,
      or_self, if_false, static_cast_char_byte, List.foldl_cons]
    by_cases hbs : b = 8 ∨ b = 127
    · have hnp : ¬ (32 ≤ b.val ∧ b.val ≤ 126) := by
        rcases hbs with h | h <;> subst h <;> decide
      simp only [hbs, if_true, textStep, hnp, if_false]
      by_cases hin : input = []
      · subst hin
        obtain ⟨o, ho⟩ := ih f [] out (n + 1) hb2 hf2
        refine ⟨o, ?_⟩
        simp only [ne_eq, not_true_eq_false, if_false, List.dropLast_nil]
        rw [ho, hlen]
      · obtain ⟨o, ho⟩ := ih f input.dropLast (out ++ [8, 32, 8]) (n + 1) hb2 hf2
        refine ⟨o, ?_⟩
        simp only [ne_eq, hin, not_false_eq_true, if_true]
        rw [ho, hlen]
    · by_cases hp : 32 ≤ b.val ∧ b.val ≤ 126
      · obtain ⟨o, ho⟩ := ih f (input ++ [b]) (out ++ maskCharacter) (n + 1) hb2 hf2
        refine ⟨o, ?_⟩
        simp only [hbs, if_false, hp, and_self, if_true, textStep]
        rw [ho, hlen]
      · obtain ⟨o, ho⟩ := ih f input out (n + 1) hb2 hf2
        refine ⟨o, ?_⟩
        simp only [hbs, if_false, hp, textStep]
        rw [ho, hlen]

/-- Folding bytes from 32 to 126 appends them all. -/
theorem foldl_textStep_printable (typed : List Byte)
    (h : ∀ b ∈ typed, 32 ≤ b.val ∧ b.val ≤ 126) :
    ∀ input : Str, typed.foldl textStep input = input ++ typed := by
  induction typed with
  | nil => intro input; simp
  | cons b typed ih =>
    intro input
    have hb := h b (List.mem_cons_self _ _)
    have ht : ∀ c ∈ typed, 32 ≤ c.val ∧ c.val ≤ 126 :=
      fun c hc => h c (List.mem_cons_of_mem _ hc)
    simp only [List.foldl_cons, textStep, hb, and_self, if_true, ih ht]
    simp

/-- C15: when the input holds an Enter byte `e` (10 or 13) and `typed` are the bytes before
the first one, `GetMaskedInput<std::string>` returns, once the loop has run
`typed.length + 1` times, the fold `foldText typed`, having read up to and including `e` and
restored the terminal attributes; a sequence of bytes from 32 to 126 is returned as it is;
and the mask never enters the returned text: the text is the same for every mask string,
the mask being written to the output only. -/
theorem GetMaskedInput_returns (ICANON ECHO : Nat) (maskCharacter : Str) (w : World)
    (typed rest : List Byte) (e : Byte) (he : e = 10 ∨ e = 13)
    (hpre : ∀ b ∈ typed, b ≠ 10 ∧ b ≠ 13) (fuel : Nat) (hfuel : typed.length + 1 ≤ fuel) :
    (GetMaskedInput ICANON ECHO maskCharacter fuel { w with stdin := typed ++ e :: rest }).map
        (fun r => (r.1, r.2.2)) =
        some (some (foldText typed),
          { w with stdin := rest, reads := w.reads + typed.length + 1 })
      ∧ ((∀ b ∈ typed, 32 ≤ b.val ∧ b.val ≤ 126) → foldText typed = typed)
      ∧ (∀ mask2 : Str,
          (GetMaskedInput ICANON ECHO mask2 fuel { w with stdin := typed ++ e :: rest }).map
              (fun r => r.1) =
            (GetMaskedInput ICANON ECHO maskCharacter fuel
              { w with stdin := typed ++ e :: rest }).map (fun r => r.1)) := by
  have run : ∀ mask : Str, ∃ out,
      GetMaskedInput ICANON ECHO mask fuel { w with stdin := typed ++ e :: rest } =
        some (some (foldText typed), out,
          { w with stdin := rest, reads := w.reads + typed.length + 1 }) := by
    intro mask
    obtain ⟨out, ho⟩ := maskedLoop_until_enter mask e rest he
      (clearLocalFlags ICANON ECHO w.term) typed fuel [] [] w.reads hpre hfuel
    refine ⟨out, ?_⟩
    simp only [GetMaskedInput, tcsetattr, tcgetattr]
    rw [ho]
    rfl
  refine ⟨?_, ?_, ?_⟩
  · obtain ⟨out, ho⟩ := run maskCharacter
    rw [ho]; rfl
  · intro hp
    have := foldl_textStep_printable typed hp []
    simpa [foldText] using this
  · intro mask2
    obtain ⟨o1, h1⟩ := run maskCharacter
    obtain ⟨o2, h2⟩ := run mask2
    rw [h1, h2]; rfl

theorem GetMaskedInput_returns_witness :
    ((10 : Byte) = 10 ∨ (10 : Byte) = 13)
      ∧ (GetMaskedInput 2 8 (lit "*") 9 ⟨⟨0, 0, 0, 10⟩, [97, 98, 127, 99, 10, 100], 0⟩).map
          (fun r => (r.1, r.2.2)) =
        some (some (foldText [97, 98, 127, 99]), ⟨⟨0, 0, 0, 10⟩, [100], 0 + 4 + 1⟩) :=
  ⟨by decide,
    (GetMaskedInput_returns 2 8 (lit "*") ⟨⟨0, 0, 0, 10⟩, [], 0⟩ [97, 98, 127, 99] [100] 10
      (by decide) (by simp) 9 (by decide)).1⟩

/-! ## Theorems about `ShowTooltip` -/

/-- The words read from a message are not empty. -/
theorem splitWords_ne_nil (message : Str) :
    ∀ cur : Str, ∀ w ∈ splitWords message cur, w ≠ [] := by
  induction message with
  | nil =>
    intro cur w hw
    simp only [splitWords] at hw
    split_ifs at hw with h
    · simp at hw
    · simp only [List.mem_singleton] at hw
      rw [hw]; exact h
  | cons b rest ih =>
    intro cur w hw
    simp only [splitWords] at hw
    split_ifs at hw with h1 h2
    · exact ih [] w hw
    · rcases List.mem_cons.mp hw with h | h
      · rw [h]; exact h2
      · exact ih [] w h
    · exact ih _ w hw

/-- Apart from a word of exactly `contentWidth` bytes met on the empty line, the loop of
`ShowTooltip` followed by the last flush writes the lines of the greedy rule: the rows it
prints are `flushLine` applied to `greedyLines` in order. -/
theorem wrapLoop_greedy (color : Str) (contentWidth leftPad : Int) :
    ∀ (words : List Str) (out currentLine : Str),
      (∀ w ∈ words, w ≠ []) →
      (currentLine = [] → ∀ w, words.head? = some w → w.length ≠ contentWidth.toNat) →
      (if (wrapLoop color contentWidth leftPad words out currentLine).2 ≠ [] then
          (flushLine color contentWidth leftPad
            (wrapLoop color contentWidth leftPad words out currentLine).1
            (wrapLoop color contentWidth leftPad words out currentLine).2).1
        else (wrapLoop color contentWidth leftPad words out currentLine).1) =
        (greedyLines contentWidth.toNat words currentLine).foldl
          (fun o l => (flushLine color contentWidth leftPad o l).1) out := by
  intro words
  induction words with
  | nil =>
    intro out cur _ _
    by_cases h : cur = [] <;> simp [wrapLoop, greedyLines, h]
  | cons word rest ih =>
    intro out cur hne hfirst
    have hw : word ≠ [] := hne word (List.mem_cons_self _ _)
    have hrest : ∀ w ∈ rest, w ≠ [] := fun w h => hne w (List.mem_cons_of_mem _ h)
    have hlit : (lit " ").length = 1 := by decide
    by_cases hc : cur = []
    · subst hc
      have hlen : word.length ≠ contentWidth.toNat := hfirst rfl word rfl
      by_cases hgt : word.length > contentWidth.toNat
      · have hcode : ([] : Str).length + 1 + word.length > contentWidth.toNat := by
          simp only [List.length_nil]; omega
        simp only [wrapLoop, hcode, if_true, greedyLines, ne_eq, not_true_eq_false, if_false,
          hgt, List.foldl_cons]
        exact ih _ word hrest (fun h => absurd h hw)
      · have hcode : ¬ ([] : Str).length + 1 + word.length > contentWidth.toNat := by
          simp only [List.length_nil]; omega
        simp only [wrapLoop, hcode, if_false, greedyLines, ne_eq, not_true_eq_false, hgt,
          List.nil_append]
        exact ih _ word hrest (fun h => absurd h hw)
    · have hl : (cur ++ lit " " ++ word).length = cur.length + 1 + word.length := by
        simp only [List.length_append, hlit]
      have hcw : cur ++ lit " " ++ word ≠ [] := by simp [hc]
      by_cases hgt : cur.length + 1 + word.length > contentWidth.toNat
      · simp only [wrapLoop, hgt, if_true, greedyLines, ne_eq, hc, not_false_eq_true, hl,
          List.foldl_cons]
        exact ih _ word hrest (fun h => absurd h hw)
      · simp only [wrapLoop, hgt, if_false, greedyLines, ne_eq, hc, not_false_eq_true, if_true,
          hl]
        exact ih _ _ hrest (fun h => absurd h hcw)

/-- For `boxWidth ≥ 3` and a message whose first word is not exactly `boxWidth - 2` bytes
long, `ShowTooltip` writes the top border, one row for each line of the greedy rule, and the
bottom border, each after `leftPad` spaces. -/
theorem ShowTooltip_greedy (termWidth : Int) (message : Str) (boxWidth : Int)
    (centerInTerminal : Bool) (color : Str) (hb : 3 ≤ boxWidth)
    (hfirst : ∀ w, (splitWords message []).head? = some w → w.length ≠ (boxWidth - 2).toNat) :
    ∃ leftPad : Int,
      ShowTooltip termWidth message boxWidth centerInTerminal color =
        some ((greedyLines (boxWidth - 2).toNat (splitWords message []) []).foldl
            (fun o l => (flushLine color (boxWidth - 2) leftPad o l).1)
            (List.replicate leftPad.toNat 32 ++ color
              ++ (lit "+" ++ List.replicate (boxWidth - 2).toNat 45 ++ lit "+")
              ++ Color.RESET ++ [10])
          ++ List.replicate leftPad.toNat 32 ++ color
          ++ (lit "+" ++ List.replicate (boxWidth - 2).toNat 45 ++ lit "+")
          ++ Color.RESET ++ [10]) := by
  have h1 : ¬ boxWidth ≤ 0 := by omega
  have h2 : ¬ boxWidth - 2 < 0 := by omega
  simp only [ShowTooltip, h1, if_false, h2]
  generalize (if (if termWidth < boxWidth then false else centerInTerminal) = true then
      if (termWidth - boxWidth).tdiv 2 < 0 then 0 else (termWidth - boxWidth).tdiv 2
    else 0) = pad
  refine ⟨pad, ?_⟩
  have hp : ∀ o : Str, (if pad > 0 then o ++ List.replicate pad.toNat 32 else o) =
      o ++ List.replicate pad.toNat 32 := by
    intro o
    split_ifs with h
    · rfl
    · have : pad.toNat = 0 := by omega
      simp [this]
  have hp0 : (if pad > 0 then List.replicate pad.toNat 32 else ([] : Str)) =
      List.replicate pad.toNat 32 := by simp
  simp only [hp, hp0, List.nil_append]
  rw [← wrapLoop_greedy color (boxWidth - 2) pad (splitWords message []) _ []
    (splitWords_ne_nil message []) (fun _ => hfirst)]
  split_ifs <;> simp

set_option maxRecDepth 100000 in
/-- C14: `ShowTooltip` evaluated where the claim fails. With `boxWidth = 7` the content width
is 5 and the only word `hello` fits on the empty first line, so the greedy rule of the claim
gives the single line `hello`; the source tests `0 + 1 + 5 > 5`, flushes the empty line and
writes a blank row before the row of `hello`. A first word shorter than the content width is
not preceded by a blank row. -/
theorem ShowTooltip_exact_fit_word :
    ShowTooltip 80 (lit "hello") 7 false [] =
        some (lit "+-----+" ++ Color.RESET ++ [10]
          ++ lit "|" ++ Color.RESET ++ lit "     " ++ lit "|" ++ Color.RESET ++ [10]
          ++ lit "|" ++ Color.RESET ++ lit "hello" ++ lit "|" ++ Color.RESET ++ [10]
          ++ lit "+-----+" ++ Color.RESET ++ [10])
      ∧ splitWords (lit "hello") [] = [lit "hello"]
      ∧ greedyLines 5 [lit "hello"] [] = [lit "hello"]
      ∧ ShowTooltip 80 (lit "hell") 7 false [] =
        some (lit "+-----+" ++ Color.RESET ++ [10]
          ++ lit "|" ++ Color.RESET ++ lit "hell " ++ lit "|" ++ Color.RESET ++ [10]
          ++ lit "+-----+" ++ Color.RESET ++ [10]) := by
  decide

end CLIKit
